import Mathlib

/-!
# Verification of the Telugu spell checker core (`spell_checker.py`)

Shallow embedding of the candidate-generation-and-ranking engine.
Python strings are modelled as `List Char` (sequences of Unicode code
points), Python sets as deduplicated lists whose canonical enumeration
is first-insertion order, the frequency model (`Counter` loaded from
JSON) as an association list, and Python's stable
`sorted(key=freq, reverse=True)` as a stable merge sort with the
order "frequency not below".
-/

/-- A word: a Python string viewed as its sequence of code points. -/
abbrev Word := List Char

/-- The constant `TELUGU_ALPHABET` from `spell_checker.py` line 10, as the list of its
code points (Python's `for c in TELUGU_ALPHABET` iterates code points;
note the conjunct `క్ష` contributes the three code points `క`, `్`, `ష`,
so `క` and `ష` occur twice). -/
def TELUGU_ALPHABET : List Char :=
  "అఆఇఈఉఊఋౠఎఏఐఒఓఔంఃకఖగఘఙచఛజఝఞటఠడఢణతథదధనపఫబభమయరలవశషసహళక్షఱ".toList

/-- Line 14: `splits = [(word[:i], word[i:]) for i in range(len(word) + 1)]`
(line 14 of `edits1`). -/
def splits (w : Word) : List (Word × Word) :=
  (List.range (w.length + 1)).map (fun i => (w.take i, w.drop i))

/-- Line 15: `deletes = [L + R[1:] for L, R in splits if R]`. -/
def deletes (w : Word) : List Word :=
  (splits w).filterMap (fun p =>
    match p.2 with
    | [] => none
    | _ :: rs => some (p.1 ++ rs))

/-- Line 16: `transposes = [L + R[1] + R[0] + R[2:] for L, R in splits if len(R) > 1]`
(line 16). -/
def transposes (w : Word) : List Word :=
  (splits w).filterMap (fun p =>
    match p.2 with
    | r0 :: r1 :: rs => some (p.1 ++ r1 :: r0 :: rs)
    | _ => none)

/-- Line 18: `replaces = [L + c + R[1:] for L, R in splits if R for c in TELUGU_ALPHABET]`
(line 18). -/
def replaces (w : Word) : List Word :=
  (splits w).flatMap (fun p =>
    match p.2 with
    | [] => []
    | _ :: rs => TELUGU_ALPHABET.map (fun c => p.1 ++ c :: rs))

/-- Line 19: `inserts = [L + c + R for L, R in splits for c in TELUGU_ALPHABET]`
(line 19). -/
def inserts (w : Word) : List Word :=
  (splits w).flatMap (fun p => TELUGU_ALPHABET.map (fun c => p.1 ++ c :: p.2))

/-- Line 20: `return set(deletes + transposes + replaces + inserts)`:
the set is the deduplicated concatenation, enumerated in first-insertion
order. -/
def edits1 (w : Word) : List Word :=
  (deletes w ++ transposes w ++ replaces w ++ inserts w).dedup

/-- The generator `edits2(word)`: `(e2 for e1 in edits1(word) for e2 in edits1(e1))`
(line 25), the lazily generated sequence with duplicates. -/
def edits2 (w : Word) : List Word :=
  (edits1 w).flatMap edits1

/-- The frequency model `self.WORDS`: a `Counter` built from the JSON
word→count object, modelled as an association list keyed by word. -/
abbrev FreqModel := List (Word × Nat)

/-- Membership `word in self.WORDS`: key membership in the counter. -/
def isKnown (m : FreqModel) (w : Word) : Bool :=
  (m.lookup w).isSome

/-- Lookup `self.WORDS.get(c, 0)` (line 67): the stored count, `0` if absent. -/
def freq (m : FreqModel) (w : Word) : Nat :=
  (m.lookup w).getD 0

/-- Method `known(words) = set(w for w in words if w in self.WORDS)`
(lines 46-48), as a deduplicated filtered list. -/
def known (m : FreqModel) (ws : List Word) : List Word :=
  (ws.filter (isKnown m)).dedup

/-- Lines 56-58 of `get_candidates`:
`candidates = self.known([word]); candidates.update(self.known(edits1(word)))` —
the tier-0/tier-1 candidate set. -/
def tier01 (m : FreqModel) (w : Word) : List Word :=
  (known m [w] ++ known m (edits1 w)).dedup

/-- Lines 56-61 of `get_candidates`: the candidate set after the
edit-distance-2 fallback
`if not candidates and word not in self.WORDS: candidates.update(self.known(set(edits2(word))))`. -/
def candidateSet (m : FreqModel) (w : Word) : List Word :=
  let c := tier01 m w
  if c.isEmpty && !(isKnown m w) then
    (c ++ known m ((edits2 w).dedup)).dedup
  else c

/-- The comparison used by `sorted(..., key=lambda item: item[1], reverse=True)`
(lines 66-70): `a` may come before `b` iff its frequency is not below `b`'s. -/
def freqGE (a b : Word × Nat) : Prop := b.2 ≤ a.2

instance : DecidableRel freqGE := fun a b => Nat.decLe b.2 a.2

/-- Python's `sorted` is a stable sort; over the decidable total order
`freqGE` it is modelled by Mathlib's stable `insertionSort`. -/
def pySortedByFreqDesc (l : List (Word × Nat)) : List (Word × Nat) :=
  l.insertionSort freqGE

/-- Lines 63-72 of `get_candidates`: pass-through `[(word, 0)]` when the
candidate set is empty, otherwise
`sorted([(c, WORDS.get(c, 0)) for c in candidates], key=item[1], reverse=True)` —
a stable sort descending by frequency over the set's enumeration. -/
def get_candidates (m : FreqModel) (w : Word) : List (Word × Nat) :=
  let c := candidateSet m w
  if c.isEmpty then [(w, 0)]
  else pySortedByFreqDesc (c.map (fun x => (x, freq m x)))

/-- Method `correct_word` (lines 74-83): `ranked_candidates[0]` raises
`IndexError` on an empty list, modelled by `none`; otherwise returns the
best word together with the ranked list. -/
def correct_word (m : FreqModel) (w : Word) : Option (Word × List (Word × Nat)) :=
  match get_candidates m w with
  | [] => none
  | x :: xs => some (x.1, x :: xs)

/-- The character class `[ఀ-౿]` (Telugu Unicode block) used by
`correct_text`'s regex (line 93) and `re.match` (line 98). -/
def isTelugu (c : Char) : Bool :=
  0x0C00 ≤ c.toNat && c.toNat ≤ 0x0C7F

/-- Python `re`'s Unicode word-character class `\w` (complement of the
`\W` in the regex of line 93): exact on ASCII (`[a-zA-Z0-9_]`); for the
non-ASCII characters this development exercises it is approximated by
the Telugu block (whose classification never affects `findParts`, since
the regex's first alternative captures Telugu characters). -/
def pyIsWordChar (c : Char) : Bool :=
  c == '_' || c.isAlphanum || isTelugu c

/-- The scanner of `re.findall`, structurally recursive on a fuel that
bounds the number of characters left (every step consumes at least one
character, so fuel `l.length` is enough and the `0`-fuel clause is never
reached from `findParts`). -/
def findPartsF : Nat → List Char → List (List Char)
  | 0, _ => []
  | _, [] => []
  | fuel + 1, c :: rest =>
    if isTelugu c then
      (c :: rest.takeWhile isTelugu) :: findPartsF fuel (rest.dropWhile isTelugu)
    else if !(pyIsWordChar c) then
      (c :: rest.takeWhile (fun d => !(pyIsWordChar d))) ::
        findPartsF fuel (rest.dropWhile (fun d => !(pyIsWordChar d)))
    else
      findPartsF fuel rest

/-- Segmentation `re.findall(r'([ఀ-౿]+|\W+)', text)` (line 93): scan left to
right; at each position the first alternative (a maximal Telugu run) is
preferred, then a maximal non-word run; a position matching neither
alternative (a non-Telugu word character such as a Latin letter, a digit
or an underscore) yields no match and is skipped. -/
def findParts (l : List Char) : List (List Char) :=
  findPartsF l.length l

/-- The mutable state of a `SpellChecker` object (lines 29-44): the
loaded counter, its total, and the per-session fields
`source_document` / `candidates_map`. -/
structure Checker where
  WORDS : FreqModel
  TOTAL_WORDS : Nat
  source_document : Option (List Char)
  candidates_map : List (Word × List Word)
deriving DecidableEq

/-- Outcome of opening and JSON-decoding the model file in `__init__`. -/
inductive LoadResult where
  | ok (entries : FreqModel)
  | fileNotFound
  | corrupt
deriving DecidableEq

/-- Constructor `SpellChecker.__init__` (lines 29-44): on success the counter and its
total are loaded; `except FileNotFoundError` yields an empty model and
total `0`; a corrupt file (`json.load` raising `JSONDecodeError`) is not
caught, so construction aborts (`none`). -/
def SpellChecker_init : LoadResult → Option Checker
  | .ok entries => some ⟨entries, (entries.map Prod.snd).sum, none, []⟩
  | .fileNotFound => some ⟨[], 0, none, []⟩
  | .corrupt => none

/-- A checker freshly constructed from a successfully loaded model. -/
def ckOf (m : FreqModel) : Checker :=
  ⟨m, (m.map Prod.snd).sum, none, []⟩

/-- Python dict assignment `d[k] = v` (line 105): an existing key keeps
its position and gets the new value; a new key is appended (insertion
order). -/
def dictInsert (m : List (Word × List Word)) (k : Word) (v : List Word) :
    List (Word × List Word) :=
  match m with
  | [] => [(k, v)]
  | (k', v') :: rest => if k' = k then (k, v) :: rest else (k', v') :: dictInsert rest k v

/-- The loop of `correct_text` (lines 95-111) over the parts, carrying
the accumulated output pieces (already joined) and the candidates map;
`none` models an uncaught exception from `correct_word`. -/
def correctPartsAux (m : FreqModel) :
    List (List Char) → List Char → List (Word × List Word) →
    Option (List Char × List (Word × List Word))
  | [], accT, accM => some (accT, accM)
  | part :: rest, accT, accM =>
    match part with
    | [] => correctPartsAux m rest (accT ++ part) accM
    | c :: _ =>
      if isTelugu c then
        match correct_word m part with
        | none => none
        | some (best, cands) =>
          if best = part then correctPartsAux m rest (accT ++ part) accM
          else correctPartsAux m rest (accT ++ best)
            (dictInsert accM part (cands.map Prod.fst))
      else
        correctPartsAux m rest (accT ++ part) accM

/-- Method `correct_text` (lines 85-113): reset the session fields, segment the
text, correct each Telugu word span, join, and return the corrected
sentence with the candidates map (also stored in the state). -/
def correct_text (ck : Checker) (text : List Char) :
    Option (Checker × (List Char × List (Word × List Word))) :=
  match correctPartsAux ck.WORDS (findParts text) [] [] with
  | none => none
  | some (t, mp) =>
    some ({ ck with source_document := some text, candidates_map := mp }, (t, mp))

/-- The candidate words of a ranked list, `[c for c, f in candidates_with_freq]`
(line 105). -/
def candidateNames (m : FreqModel) (w : Word) : List Word :=
  (get_candidates m w).map Prod.fst

/-- A part on which `correct_text` performs a replacement: a Telugu word
span whose best correction differs from it. -/
def isCorrectedSpan (m : FreqModel) (part : List Char) : Bool :=
  match part with
  | [] => false
  | c :: _ =>
    isTelugu c &&
      (match correct_word m part with
       | some (b, _) => decide (b ≠ part)
       | none => false)

/-! ## Structure of the edit lists -/

lemma splits_nil : splits [] = [([], [])] := rfl

lemma splits_cons (c : Char) (w : Word) :
    splits (c :: w) = ([], c :: w) :: (splits w).map (fun p => (c :: p.1, p.2)) := by
  unfold splits
  rw [List.length_cons, List.range_succ_eq_map]
  simp [List.map_map, Function.comp_def]

lemma deletes_nil : deletes [] = [] := rfl

lemma deletes_cons (c : Char) (w : Word) :
    deletes (c :: w) = w :: (deletes w).map (fun d => c :: d) := by
  unfold deletes
  rw [splits_cons, List.filterMap_cons, List.filterMap_map, List.map_filterMap]
  refine congrArg (List.cons w) ?_
  apply List.filterMap_congr
  intro p _
  rcases p with ⟨L, R⟩
  cases R <;> simp

lemma transposes_nil : transposes [] = [] := rfl

lemma transposes_single (c : Char) : transposes [c] = [] := rfl

lemma transposes_cons₂ (c d : Char) (w : Word) :
    transposes (c :: d :: w)
      = (d :: c :: w) :: (transposes (d :: w)).map (fun t => c :: t) := by
  unfold transposes
  rw [splits_cons c (d :: w), List.filterMap_cons, List.filterMap_map, List.map_filterMap]
  refine congrArg (List.cons (d :: c :: w)) ?_
  apply List.filterMap_congr
  intro p _
  rcases p with ⟨L, R⟩
  match R with
  | [] => simp
  | [r] => simp
  | r0 :: r1 :: rs => simp

lemma replaces_nil : replaces [] = [] := rfl

lemma replaces_cons (c : Char) (w : Word) :
    replaces (c :: w)
      = TELUGU_ALPHABET.map (fun a => a :: w)
        ++ (replaces w).map (fun d => c :: d) := by
  unfold replaces
  rw [splits_cons, List.flatMap_cons, List.flatMap_map, List.map_flatMap]
  refine congrArg₂ (· ++ ·) ?_ ?_
  · simp
  · apply List.flatMap_congr
    intro p _
    rcases p with ⟨L, R⟩
    cases R <;> simp [List.map_map, Function.comp_def]

lemma inserts_nil : inserts [] = TELUGU_ALPHABET.map (fun a => [a]) := by
  unfold inserts
  rw [splits_nil]
  simp

lemma inserts_cons (c : Char) (w : Word) :
    inserts (c :: w)
      = TELUGU_ALPHABET.map (fun a => a :: c :: w)
        ++ (inserts w).map (fun d => c :: d) := by
  unfold inserts
  rw [splits_cons, List.flatMap_cons, List.flatMap_map, List.map_flatMap]
  refine congrArg₂ (· ++ ·) ?_ ?_
  · simp
  · apply List.flatMap_congr
    intro p _
    simp [List.map_map, Function.comp_def]

lemma length_deletes (w : Word) : (deletes w).length = w.length := by
  induction w with
  | nil => rfl
  | cons c w ih => rw [deletes_cons]; simp [ih]

lemma length_transposes (w : Word) : (transposes w).length = w.length - 1 := by
  induction w with
  | nil => rfl
  | cons c w ih =>
    cases w with
    | nil => rfl
    | cons d w' =>
      rw [transposes_cons₂]
      simpa using ih

lemma length_replaces (w : Word) :
    (replaces w).length = w.length * TELUGU_ALPHABET.length := by
  induction w with
  | nil => rfl
  | cons c w ih =>
    rw [replaces_cons]
    simp [ih, Nat.succ_mul, Nat.add_comm]

lemma length_inserts (w : Word) :
    (inserts w).length = (w.length + 1) * TELUGU_ALPHABET.length := by
  induction w with
  | nil => rw [inserts_nil]; simp
  | cons c w ih =>
    rw [inserts_cons]
    simp only [List.length_append, List.length_map, List.length_cons, ih]
    ring

/-- The replacement branch regenerates the word itself as soon as one of
its characters is an alphabet symbol (that character replaced by
itself). -/
lemma mem_replaces_self (w : Word) (h : ∃ c ∈ w, c ∈ TELUGU_ALPHABET) :
    w ∈ replaces w := by
  induction w with
  | nil => simp at h
  | cons c w ih =>
    rw [replaces_cons]
    by_cases hc : c ∈ TELUGU_ALPHABET
    · exact List.mem_append_left _ (List.mem_map.mpr ⟨c, hc, rfl⟩)
    · rcases h with ⟨d, hd, hda⟩
      rcases hd with _ | hd'
      · exact absurd hda hc
      · exact List.mem_append_right _
          (List.mem_map.mpr ⟨w, ih ⟨d, by assumption, hda⟩, rfl⟩)

/-! ## Helper lemmas about the ranker -/

lemma mem_of_mem_known {m : FreqModel} {ws : List Word} {x : Word}
    (h : x ∈ known m ws) : x ∈ ws ∧ isKnown m x = true := by
  rw [known, List.mem_dedup, List.mem_filter] at h
  exact h

lemma known_empty_model (ws : List Word) : known [] ws = [] := by
  rw [known, List.filter_eq_nil_iff.mpr (fun a _ => by simp [isKnown])]
  rfl

lemma self_mem_known {m : FreqModel} {w : Word} (h : isKnown m w = true) :
    w ∈ known m [w] := by
  rw [known, List.mem_dedup, List.mem_filter]
  exact ⟨List.mem_singleton_self w, h⟩

/-- Either `[(word, 0)]` or a permutation of the decorated candidate set: either
way `get_candidates` never returns the empty list. -/
lemma get_candidates_ne_nil (m : FreqModel) (w : Word) :
    get_candidates m w ≠ [] := by
  unfold get_candidates
  set c := candidateSet m w with hc
  by_cases h : c.isEmpty
  · simp [h]
  · have hlen : (pySortedByFreqDesc (c.map (fun x => (x, freq m x)))).length
        = c.length := by
      rw [pySortedByFreqDesc, (List.perm_insertionSort freqGE _).length_eq,
        List.length_map]
    intro hnil
    rw [if_neg h] at hnil
    rw [hnil] at hlen
    rw [List.isEmpty_iff] at h
    exact h (List.length_eq_zero.mp hlen.symm)

lemma correct_word_isSome (m : FreqModel) (w : Word) :
    (correct_word m w).isSome = true := by
  unfold correct_word
  cases h : get_candidates m w with
  | nil => exact absurd h (get_candidates_ne_nil m w)
  | cons x xs => rfl

/-- The ranked list handed back by `correct_word` is exactly
`get_candidates`. -/
lemma correct_word_eq (m : FreqModel) {w b : Word} {cands : List (Word × Nat)}
    (h : correct_word m w = some (b, cands)) :
    cands = get_candidates m w := by
  unfold correct_word at h
  cases hg : get_candidates m w with
  | nil => rw [hg] at h; exact absurd h (by simp)
  | cons x xs =>
    rw [hg] at h
    simp only [Option.some.injEq, Prod.mk.injEq] at h
    exact h.2.symm

/-! ## C3: the `edits1` contract -/

/-- Claim C3: `edits1(word)` is the deduplicated union of exactly `n`
deletions, `n−1` adjacent transpositions (`0` if `n<2`), `n·A`
replacements and `(n+1)·A` insertions, where `A` is the alphabet length;
hence for `n ≥ 2` its cardinality is at most
`n + (n−1) + n·A + (n+1)·A`, and `edits1` of the empty string consists
exactly of the single-symbol insertions of the alphabet. -/
theorem C3_edits1_contract :
    (∀ w : Word,
      edits1 w = (deletes w ++ transposes w ++ replaces w ++ inserts w).dedup
      ∧ (deletes w).length = w.length
      ∧ (transposes w).length = w.length - 1
      ∧ (replaces w).length = w.length * TELUGU_ALPHABET.length
      ∧ (inserts w).length = (w.length + 1) * TELUGU_ALPHABET.length
      ∧ (2 ≤ w.length →
          (edits1 w).length
            ≤ w.length + (w.length - 1) + w.length * TELUGU_ALPHABET.length
              + (w.length + 1) * TELUGU_ALPHABET.length))
    ∧ (∀ v : Word, v ∈ edits1 [] ↔ ∃ c ∈ TELUGU_ALPHABET, v = [c]) := by
  constructor
  · intro w
    refine ⟨rfl, length_deletes w, length_transposes w, length_replaces w,
      length_inserts w, fun _ => ?_⟩
    calc (edits1 w).length
        ≤ (deletes w ++ transposes w ++ replaces w ++ inserts w).length :=
          (List.dedup_sublist _).length_le
      _ = w.length + (w.length - 1) + w.length * TELUGU_ALPHABET.length
            + (w.length + 1) * TELUGU_ALPHABET.length := by
          simp only [List.length_append, length_deletes, length_transposes,
            length_replaces, length_inserts]
  · intro v
    rw [edits1, List.mem_dedup, deletes_nil, transposes_nil, replaces_nil,
      inserts_nil]
    simp only [List.nil_append, List.mem_map]
    constructor
    · rintro ⟨c, hc, rfl⟩; exact ⟨c, hc, rfl⟩
    · rintro ⟨c, hc, rfl⟩; exact ⟨c, hc, rfl⟩

/-- Claim C3 witness: the cardinality bound applied at the two-letter word
`అఆ`. -/
theorem C3_edits1_contract_witness :
    2 ≤ (['అ', 'ఆ'] : Word).length
    ∧ (edits1 ['అ', 'ఆ']).length
        ≤ (['అ', 'ఆ'] : Word).length + ((['అ', 'ఆ'] : Word).length - 1)
          + (['అ', 'ఆ'] : Word).length * TELUGU_ALPHABET.length
          + ((['అ', 'ఆ'] : Word).length + 1) * TELUGU_ALPHABET.length :=
  ⟨by decide, ((C3_edits1_contract.1 ['అ', 'ఆ']).2.2.2.2.2) (by decide)⟩

/-! ## C10: a word is its own edit-distance-1 neighbour -/

/-- Claim C10: every non-empty word with at least one alphabet character
is an element of its own `edits1` set (a replacement substitutes a
character by itself), so membership in `edits1(word)` does not imply
edit distance exactly 1; consequently a known word all of whose
characters are alphabet symbols is both its own tier-0 candidate
(`known([word])`) and its own tier-1 candidate (`known(edits1(word))`). -/
theorem C10_self_membership :
    (∀ w : Word, w ≠ [] → (∃ c ∈ w, c ∈ TELUGU_ALPHABET) → w ∈ edits1 w)
    ∧ (∀ (m : FreqModel) (w : Word), w ≠ [] → (∀ c ∈ w, c ∈ TELUGU_ALPHABET) →
        isKnown m w = true → w ∈ known m [w] ∧ w ∈ known m (edits1 w)) := by
  have main : ∀ w : Word, (∃ c ∈ w, c ∈ TELUGU_ALPHABET) → w ∈ edits1 w := by
    intro w hw
    rw [edits1, List.mem_dedup]
    simp only [List.mem_append]
    exact Or.inl (Or.inr (mem_replaces_self w hw))
  refine ⟨fun w _ hw => main w hw, fun m w hne hall hk => ?_⟩
  have hex : ∃ c ∈ w, c ∈ TELUGU_ALPHABET := by
    cases w with
    | nil => exact absurd rfl hne
    | cons c w' => exact ⟨c, List.mem_cons_self c w', hall c (List.mem_cons_self c w')⟩
  refine ⟨self_mem_known hk, ?_⟩
  rw [known, List.mem_dedup, List.mem_filter]
  exact ⟨main w hex, hk⟩

/-- Claim C10 witness: the known all-alphabet word `అ` over the singleton
model `{అ ↦ 1}`. -/
theorem C10_self_membership_witness :
    (['అ'] : Word) ∈ edits1 ['అ']
    ∧ (['అ'] ∈ known [(['అ'], 1)] [['అ']]
        ∧ ['అ'] ∈ known [(['అ'], 1)] (edits1 ['అ'])) :=
  ⟨C10_self_membership.1 ['అ'] (by decide) ⟨'అ', by decide, by decide⟩,
   C10_self_membership.2 [(['అ'], 1)] ['అ'] (by decide)
     (by intro c hc; rw [List.mem_singleton] at hc; subst hc; decide) rfl⟩

/-! ## C4: tier precedence -/

/-- Claim C4: when the tier-0/tier-1 candidate set is non-empty, the
edit-distance-2 fallback is skipped (the candidate set is exactly the
tier-0/1 set) and every word in the ranked list is the original word or
a member of `edits1(word)` — never a word reachable only at edit
distance 2. -/
theorem C4_tier_precedence (m : FreqModel) (w : Word) (h : tier01 m w ≠ []) :
    candidateSet m w = tier01 m w
    ∧ ∀ p ∈ get_candidates m w, p.1 = w ∨ p.1 ∈ edits1 w := by
  have hempty : (tier01 m w).isEmpty = false := by
    rw [List.isEmpty_eq_false_iff_exists_mem]
    exact List.exists_mem_of_ne_nil _ h
  have hset : candidateSet m w = tier01 m w := by
    rw [candidateSet]
    simp [hempty]
  refine ⟨hset, fun p hp => ?_⟩
  rw [get_candidates] at hp
  simp only [hset, hempty, Bool.false_eq_true, if_false] at hp
  rw [pySortedByFreqDesc, (List.perm_insertionSort freqGE _).mem_iff] at hp
  rw [List.mem_map] at hp
  obtain ⟨x, hx, rfl⟩ := hp
  rw [tier01, List.mem_dedup, List.mem_append] at hx
  rcases hx with hx | hx
  · left
    have := (mem_of_mem_known hx).1
    simpa using this
  · right
    exact (mem_of_mem_known hx).1

set_option maxRecDepth 8192 in
/-- Claim C4 witness: over the model `{అ ↦ 1}` and the known word `అ`, the
tier-0/1 set is non-empty and every ranked candidate is the word itself
or one of its `edits1` neighbours. -/
theorem C4_tier_precedence_witness :
    candidateSet [(['అ'], 1)] ['అ'] = tier01 [(['అ'], 1)] ['అ']
    ∧ ∀ p ∈ get_candidates [(['అ'], 1)] ['అ'],
        p.1 = ['అ'] ∨ p.1 ∈ edits1 ['అ'] :=
  C4_tier_precedence [(['అ'], 1)] ['అ'] (by decide)

/-! ## C6: pass-through fallback -/

/-- Claim C6: a word that is not in the model and has no known word in its
`edits1` set nor in its (deduplicated) `edits2` sequence yields the
single-element ranked list `[(word, 0)]`; this is an ordinary return,
not an error. -/
theorem C6_fallback (m : FreqModel) (w : Word)
    (h0 : isKnown m w = false)
    (h1 : known m (edits1 w) = [])
    (h2 : known m ((edits2 w).dedup) = []) :
    get_candidates m w = [(w, 0)] := by
  have ht : tier01 m w = [] := by
    rw [tier01, known, List.filter_singleton, h0]
    simp [h1]
  have hc : candidateSet m w = [] := by
    rw [candidateSet, ht]
    simp [h0, h2]
  rw [get_candidates, hc]
  rfl

/-- Claim C6 witness: over the empty model every word falls through to
`[(word, 0)]`. -/
theorem C6_fallback_witness : get_candidates [] ['అ'] = [(['అ'], 0)] :=
  C6_fallback [] ['అ'] rfl (known_empty_model _) (known_empty_model _)

/-! ## C7: totality of the correction path -/

lemma correctPartsAux_isSome (m : FreqModel) :
    ∀ (parts : List (List Char)) (accT : List Char)
      (accM : List (Word × List Word)),
      (correctPartsAux m parts accT accM).isSome = true := by
  intro parts
  induction parts with
  | nil => intro accT accM; rfl
  | cons part rest ih =>
    intro accT accM
    cases part with
    | nil => exact ih _ _
    | cons c cs =>
      rw [correctPartsAux]
      by_cases hT : isTelugu c
      · rw [if_pos hT]
        cases hcw : correct_word m (c :: cs) with
        | none =>
          exact absurd hcw (by simp [← Option.isSome_iff_ne_none,
            correct_word_isSome])
        | some bc =>
          obtain ⟨b, cands⟩ := bc
          dsimp only
          by_cases hb : b = c :: cs
          · rw [if_pos hb]; exact ih _ _
          · rw [if_neg hb]; exact ih _ _
      · rw [if_neg hT]
        exact ih _ _

/-- Claim C7: the correction path is total — `get_candidates` always
returns a non-empty list, `correct_word` always returns a pair (it never
hits the `IndexError` of indexing an empty list), and `correct_text`
never fails on any input string. -/
theorem C7_totality :
    (∀ (m : FreqModel) (w : Word),
      get_candidates m w ≠ [] ∧ (correct_word m w).isSome = true)
    ∧ (∀ (ck : Checker) (t : List Char), (correct_text ck t).isSome = true) := by
  refine ⟨fun m w => ⟨get_candidates_ne_nil m w, correct_word_isSome m w⟩,
    fun ck t => ?_⟩
  rw [correct_text]
  cases haux : correctPartsAux ck.WORDS (findParts t) [] [] with
  | none =>
    exact absurd haux (by simp [← Option.isSome_iff_ne_none,
      correctPartsAux_isSome])
  | some r => obtain ⟨a, b⟩ := r; rfl

/-- Claim C7 witness: the correction path applied to the empty word and
the empty text over the empty model. -/
theorem C7_totality_witness :
    get_candidates [] [] ≠ [] ∧ (correct_word [] []).isSome = true
    ∧ (correct_text (ckOf []) []).isSome = true :=
  ⟨(C7_totality.1 [] []).1, (C7_totality.1 [] []).2, C7_totality.2 (ckOf []) []⟩

/-! ## C1: idempotence of known words fails on the code -/

/-- A model in which the known word `అ` (count 1) has the known
edit-distance-1 neighbour `ఆ` of higher count 5. -/
def mC1 : FreqModel := [(['అ'], 1), (['ఆ'], 5)]

set_option maxRecDepth 8192 in
/-- Claim C1: evaluation at the failing input. `అ` is a key of the model,
yet `correct_word` ranks the higher-frequency edit-1 neighbour `ఆ`
first — `get_candidates` merges `known([word])` with
`known(edits1(word))` and sorts by frequency alone, so the best word for
the known word `అ` is `ఆ`, not `అ`. -/
theorem C1_known_word_not_idempotent :
    isKnown mC1 ['అ'] = true
    ∧ (correct_word mC1 ['అ']).map Prod.fst = some ['ఆ']
    ∧ ((['ఆ'] : Word) == ['అ']) = false := by
  refine ⟨rfl, by decide, rfl⟩

/-! ## C2: lossless segmentation fails on the code -/

set_option maxRecDepth 8192 in
/-- Claim C2: evaluation at the failing input. The regex
`[ఀ-౿]+|\W+` matches neither alternative on a non-Telugu word
character, so `findParts "a"` is empty and `correct_text` returns the
empty string: the character `a` is dropped instead of being emitted
verbatim. -/
theorem C2_segmentation_drops_chars :
    findParts ['a'] = []
    ∧ correct_text (ckOf []) ['a'] = some (⟨[], 0, some ['a'], []⟩, ([], []))
    ∧ (([] : List Char) == ['a']) = false := by
  refine ⟨rfl, by decide, rfl⟩

/-! ## C5: ranking has no deterministic tie-break -/

/-- The ranking step of lines 66-70 with the iteration order of the
`candidates` hash set made explicit as the parameter `enum` (Python
enumerates a `set` in an order that depends on the string hashes, which
vary from process to process). -/
def rankEnum (m : FreqModel) (enum : List Word) : List (Word × Nat) :=
  pySortedByFreqDesc (enum.map (fun c => (c, freq m c)))

/-- A model with two words tied at frequency 1. -/
def mC5 : FreqModel := [(['అ'], 1), (['ఆ'], 1)]

/-- Claim C5: the sort key is the frequency alone, so two enumerations of
the same candidate set — a tie at frequency 1 — produce different
ranked lists: the output order of ties is inherited from the hash-set
iteration order, not fixed by any explicit deterministic secondary
key. -/
theorem C5_no_deterministic_tiebreak :
    freq mC5 ['అ'] = freq mC5 ['ఆ']
    ∧ ([['అ'], ['ఆ']] : List Word).Perm [['ఆ'], ['అ']]
    ∧ (rankEnum mC5 [['అ'], ['ఆ']] == rankEnum mC5 [['ఆ'], ['అ']]) = false := by
  refine ⟨rfl, List.Perm.swap _ _ _, by decide⟩

/-! ## C8: graceful load failure only covers a missing file -/

/-- Claim C8 counterexample: a corrupt model source does not construct an
empty model — the `except` clause of `__init__` catches only
`FileNotFoundError`, so the JSON decode error propagates and
construction aborts. -/
theorem C8_corrupt_aborts : SpellChecker_init LoadResult.corrupt = none := rfl

/-- Claim C8 amended: when the model source is absent, construction
recovers with a usable empty model — zero known words and zero total —
while a corrupt source aborts construction. -/
theorem C8_absent_recovers :
    (∃ ck, SpellChecker_init LoadResult.fileNotFound = some ck
      ∧ ck.WORDS.length = 0 ∧ ck.TOTAL_WORDS = 0)
    ∧ SpellChecker_init LoadResult.corrupt = none :=
  ⟨⟨⟨[], 0, none, []⟩, rfl, rfl, rfl⟩, rfl⟩

/-! ## C9: diagnostics map semantics and per-call reset -/

lemma lookup_dictInsert_self (m : List (Word × List Word)) (k : Word)
    (v : List Word) : (dictInsert m k v).lookup k = some v := by
  induction m with
  | nil => simp [dictInsert, List.lookup]
  | cons kv rest ih =>
    obtain ⟨k', v'⟩ := kv
    rw [dictInsert]
    by_cases h : k' = k
    · rw [if_pos h]; simp [List.lookup]
    · rw [if_neg h]
      have hbeq : (k == k') = false :=
        beq_eq_false_iff_ne.mpr (fun hh => h hh.symm)
      simp [List.lookup, hbeq, ih]

lemma lookup_dictInsert_ne (m : List (Word × List Word)) (k : Word)
    (v : List Word) (w : Word) (h : w ≠ k) :
    (dictInsert m k v).lookup w = m.lookup w := by
  have hk : (w == k) = false := beq_eq_false_iff_ne.mpr h
  induction m with
  | nil => simp [dictInsert, List.lookup, hk]
  | cons kv rest ih =>
    obtain ⟨k', v'⟩ := kv
    rw [dictInsert]
    by_cases hkk : k' = k
    · rw [if_pos hkk]
      subst hkk
      simp [List.lookup, hk]
    · rw [if_neg hkk]
      by_cases hw : w = k'
      · subst hw
        simp [List.lookup]
      · have hbeq : (w == k') = false := beq_eq_false_iff_ne.mpr hw
        simp [List.lookup, hbeq, ih]

/-- Running the correction loop, the final candidates map answers a
lookup of `w` with the ranked candidate names of `w` exactly when some
remaining part is a corrected Telugu word span equal to `w`; otherwise
the incoming map answers. -/
lemma correctPartsAux_lookup (m : FreqModel) :
    ∀ (parts : List (List Char)) (accT : List Char)
      (accM : List (Word × List Word)) (res : List Char × List (Word × List Word)),
      correctPartsAux m parts accT accM = some res →
      ∀ w : Word,
        res.2.lookup w =
          if parts.any (fun p => p == w && isCorrectedSpan m p) then
            some (candidateNames m w)
          else accM.lookup w := by
  intro parts
  induction parts with
  | nil =>
    intro accT accM res h w
    rw [correctPartsAux] at h
    injection h with h
    subst h
    simp
  | cons part rest ih =>
    intro accT accM res h w
    rw [List.any_cons]
    cases part with
    | nil =>
      have := ih _ _ _ h w
      rw [this]
      simp [isCorrectedSpan]
    | cons c cs =>
      rw [correctPartsAux] at h
      by_cases hT : isTelugu c
      · rw [if_pos hT] at h
        cases hcw : correct_word m (c :: cs) with
        | none =>
          exact absurd hcw (by simp [← Option.isSome_iff_ne_none,
            correct_word_isSome])
        | some bc =>
          obtain ⟨b, cands⟩ := bc
          rw [hcw] at h
          dsimp only at h
          have hspan : isCorrectedSpan m (c :: cs)
              = decide (b ≠ c :: cs) := by
            rw [isCorrectedSpan]
            rw [hcw]
            simp [hT]
          by_cases hb : b = c :: cs
          · rw [if_pos hb] at h
            have := ih _ _ _ h w
            rw [this, hspan]
            simp [hb]
          · rw [if_neg hb] at h
            have hrec := ih _ _ _ h w
            rw [hrec, hspan]
            have hnames : cands.map Prod.fst = candidateNames m (c :: cs) := by
              rw [correct_word_eq m hcw, candidateNames]
            by_cases hw : (c :: cs : Word) = w
            · subst hw
              simp only [beq_self_eq_true, Bool.true_and, decide_eq_true hb,
                Bool.true_or, if_true]
              by_cases hrest : rest.any (fun p => p == (c :: cs : Word)
                  && isCorrectedSpan m p)
              · rw [if_pos hrest]
              · rw [if_neg hrest, hnames, lookup_dictInsert_self]
            · have hbeq : ((c :: cs : Word) == w) = false := by
                simp [beq_iff_eq, hw]
              rw [hbeq]
              simp only [Bool.false_and, Bool.false_or]
              by_cases hrest : rest.any (fun p => p == w && isCorrectedSpan m p)
              · rw [if_pos hrest, if_pos hrest]
              · rw [if_neg hrest, if_neg hrest,
                  lookup_dictInsert_ne _ _ _ _ (fun hh => hw hh.symm)]
      · rw [if_neg hT] at h
        have := ih _ _ _ h w
        rw [this]
        simp [isCorrectedSpan, hT]

/-- Claim C9: (i) the outcome of `correct_text` — stored session fields
and returned pair — depends only on the input text and the frequency
model, not on previously stored session state, and (ii) on success the
state holds exactly this call's text and map, and the diagnostics map
answers a lookup of `w` with the ranked candidate names of `w` precisely
when some word span of the text equals `w` and its best correction
differs from it (unchanged word spans and non-word spans produce no
entry). -/
theorem C9_diagnostics_map :
    (∀ (ck₁ ck₂ : Checker) (t : List Char), ck₁.WORDS = ck₂.WORDS →
      (correct_text ck₁ t).map
          (fun r => (r.1.source_document, r.1.candidates_map, r.2))
        = (correct_text ck₂ t).map
          (fun r => (r.1.source_document, r.1.candidates_map, r.2)))
    ∧ (∀ (ck : Checker) (t : List Char)
        (res : Checker × (List Char × List (Word × List Word)))
        (w : Word) (cs : List Word),
        correct_text ck t = some res →
        res.1.source_document = some t
        ∧ res.1.candidates_map = res.2.2
        ∧ (res.2.2.lookup w = some cs ↔
            ((findParts t).any
                (fun p => p == w && isCorrectedSpan ck.WORDS p) = true
              ∧ cs = candidateNames ck.WORDS w))) := by
  constructor
  · intro ck₁ ck₂ t hW
    rw [correct_text, correct_text, hW]
    cases correctPartsAux ck₂.WORDS (findParts t) [] [] with
    | none => rfl
    | some r => obtain ⟨a, b⟩ := r; rfl
  · intro ck t res w cs h
    rw [correct_text] at h
    cases haux : correctPartsAux ck.WORDS (findParts t) [] [] with
    | none => rw [haux] at h; exact absurd h (by simp)
    | some r =>
      obtain ⟨tt, mp⟩ := r
      rw [haux] at h
      injection h with h
      subst h
      refine ⟨rfl, rfl, ?_⟩
      have hlook := correctPartsAux_lookup ck.WORDS _ _ _ _ haux w
      dsimp only at hlook
      rw [hlook]
      by_cases hany : (findParts t).any
          (fun p => p == w && isCorrectedSpan ck.WORDS p)
      · rw [if_pos hany]
        constructor
        · intro hsome
          injection hsome with hsome
          exact ⟨hany, hsome.symm⟩
        · rintro ⟨-, rfl⟩
          rfl
      · rw [if_neg hany]
        simp only [List.lookup]
        constructor
        · intro hsome; exact absurd hsome (by simp)
        · rintro ⟨hc, -⟩; exact absurd hc hany

/-- A model knowing only `ఆ` with count 5; the word span `అ` of the
input gets corrected to `ఆ`. -/
def mC9 : FreqModel := [(['ఆ'], 5)]

/-- A checker over `mC9` carrying stale session state from an earlier
call. -/
def ck9stale : Checker := ⟨mC9, 5, some ['వ'], [(['వ'], [['వ']])]⟩

/-- The expected outcome of correcting the text `అ` over `mC9`. -/
def res9 : Checker × (List Char × List (Word × List Word)) :=
  (⟨mC9, 5, some ['అ'], [(['అ'], [['ఆ']])]⟩, (['ఆ'], [(['అ'], [['ఆ']])]))

set_option maxRecDepth 8192 in
/-- Claim C9 witness: correcting the text `అ` over `mC9` gives the same
outcome from a fresh checker and from one with stale session state, and
the resulting diagnostics map holds exactly the entry `అ ↦ [ఆ]`. -/
theorem C9_diagnostics_map_witness :
    ((correct_text ck9stale ['అ']).map
        (fun r => (r.1.source_document, r.1.candidates_map, r.2))
      = (correct_text (ckOf mC9) ['అ']).map
        (fun r => (r.1.source_document, r.1.candidates_map, r.2)))
    ∧ (res9.1.source_document = some ['అ']
        ∧ res9.1.candidates_map = res9.2.2
        ∧ (res9.2.2.lookup ['అ'] = some [['ఆ']] ↔
            ((findParts ['అ']).any
                (fun p => p == (['అ'] : Word)
                  && isCorrectedSpan (ckOf mC9).WORDS p) = true
              ∧ [['ఆ']] = candidateNames (ckOf mC9).WORDS ['అ']))) :=
  ⟨C9_diagnostics_map.1 ck9stale (ckOf mC9) ['అ'] rfl,
   C9_diagnostics_map.2 (ckOf mC9) ['అ'] res9 ['అ'] [['ఆ']] (by decide)⟩
